import Mathlib

/-!
Verification of the record-deduplication and citation-resolution core of
the cloud_infra_drift_slr repository.

The embedded code:
  * scripts/deduplicate_papers.py : normalize_string, normalize_authors,
    title_similarity (difflib.SequenceMatcher ratio), are_duplicates,
    deduplicate_papers;
  * scripts/build_website.py : the per-citation resolution logic of
    load_reference_map (structural pool matching and the token-overlap
    fallback).

Modelling conventions: Python strings are lists of Unicode code points
(`List Nat`); the ASCII fragments of str.lower, regex \w and \s are
embedded explicitly; floats produced by the similarity arithmetic are
modelled as exact rationals.
-/

abbrev PyStr := List Nat

/-- Code points of a Lean string literal, for writing concrete inputs. -/
def strCodes (s : String) : PyStr := s.data.map Char.toNat

/-- str.lower on ASCII input: map the range A-Z onto a-z. -/
def lowerChar (c : Nat) : Nat := if 65 ≤ c ∧ c ≤ 90 then c + 32 else c

def lowerStr (s : PyStr) : PyStr := s.map lowerChar

/-- Regex class \w (word character), ASCII: letter, digit or underscore. -/
def isWordChar (c : Nat) : Bool :=
  (97 ≤ c && c ≤ 122) || (65 ≤ c && c ≤ 90) || (48 ≤ c && c ≤ 57) || (c == 95)

/-- Regex class \s (whitespace), ASCII. -/
def isSpaceChar (c : Nat) : Bool :=
  (c == 32) || (c == 9) || (c == 10) || (c == 13) || (c == 11) || (c == 12)

/-- re.sub of one whitespace run by a single space, applied to every
maximal run: the effect of re.sub of the class \s+ with a space. -/
def collapseWs : PyStr → PyStr
  | [] => []
  | c :: rest =>
    let r := collapseWs rest
    if isSpaceChar c then
      if r.head? = some 32 then r else 32 :: r
    else c :: r

/-- str.strip: drop whitespace from both ends. -/
def stripWs (s : PyStr) : PyStr :=
  ((s.dropWhile (fun c => isSpaceChar c)).reverse.dropWhile (fun c => isSpaceChar c)).reverse

/-- scripts/deduplicate_papers.py, normalize_string (lines 14-21):
lowercase, replace every character outside \w and \s by a space,
collapse whitespace runs, strip.  The empty string stands for the
absent-input case, which the Python guard maps to the empty string. -/
def normalize_string (s : PyStr) : PyStr :=
  stripWs (collapseWs ((lowerStr s).map (fun c => if isWordChar c || isSpaceChar c then c else 32)))

/-- Letter or digit, ASCII: the character class named by the spec
sentence for C4, which omits the underscore. -/
def isLetterOrDigit (c : Nat) : Bool :=
  (97 ≤ c && c ≤ 122) || (65 ≤ c && c ≤ 90) || (48 ≤ c && c ≤ 57)

/-- The normalization algorithm exactly as the C4 spec sentence states
it: replace each character that is not a letter, digit, or whitespace
with a single space, lowercase, collapse whitespace, trim. -/
def normalizeSpecClaim (s : PyStr) : PyStr :=
  stripWs (collapseWs (lowerStr (s.map (fun c => if isLetterOrDigit c || isSpaceChar c then c else 32))))

/-- The C4 algorithm amended minimally: the replaced class also keeps
the underscore (regex \w), as the code does. -/
def normalizeSpecAmended (s : PyStr) : PyStr :=
  stripWs (collapseWs (lowerStr (s.map (fun c => if isWordChar c || isSpaceChar c then c else 32))))

/-! ### difflib.SequenceMatcher, as used by title_similarity

SequenceMatcher(None, a, b): isjunk is None, so the junk set bjunk is
empty; autojunk is on, so elements occupying more than n/100 + 1 of the
positions of b are purged from b2j when b has at least 200 elements. -/

/-- All positions of code point c in b, ascending: the b2j entry before
the popularity purge. -/
def pyPositions (b : PyStr) (c : Nat) : List Nat :=
  (List.range b.length).filter (fun j => b.getD j 0 == c)

/-- The autojunk popularity cutoff n // 100 + 1. -/
def pyNtest (n : Nat) : Nat := n / 100 + 1

/-- autojunk: c is popular when b has at least 200 elements and c occupies
more than the cutoff number of positions. -/
def pyPopular (b : PyStr) (c : Nat) : Bool :=
  decide (200 ≤ b.length) && decide (pyNtest b.length < (pyPositions b c).length)

/-- b2j.get(c, []): positions of c in b, with popular elements purged. -/
def pyB2j (b : PyStr) (c : Nat) : List Nat :=
  if pyPopular b c then [] else pyPositions b c

/-- One step of the inner loop of find_longest_match: record the new
j2len entry k and update the running best block.  prev is the previous
row j2len; the second component of the accumulator is newj2len. -/
def flmStep (prev : Nat → Nat) (i : Nat)
    (acc : (Nat × Nat × Nat) × (Nat → Nat)) (j : Nat) : (Nat × Nat × Nat) × (Nat → Nat) :=
  let k := (if j = 0 then 0 else prev (j - 1)) + 1
  let best := acc.1
  let best' := if best.2.2 < k then (i + 1 - k, j + 1 - k, k) else best
  (best', fun j' => if j' = j then k else acc.2 j')

/-- One row (one value of i) of the find_longest_match dynamic program:
iterate over the in-range positions of a[i] in b. -/
def flmRow (a : PyStr) (b2jf : Nat → List Nat) (blo bhi : Nat)
    (st : (Nat × Nat × Nat) × (Nat → Nat)) (i : Nat) : (Nat × Nat × Nat) × (Nat → Nat) :=
  let js := (b2jf (a.getD i 0)).filter (fun j => decide (blo ≤ j) && decide (j < bhi))
  js.foldl (flmStep st.2 i) (st.1, fun _ => 0)

/-- The dynamic program of find_longest_match: the best junk-free block,
starting from (alo, blo, 0). -/
def flmBest (a : PyStr) (b2jf : Nat → List Nat) (alo ahi blo bhi : Nat) : Nat × Nat × Nat :=
  ((List.range' alo (ahi - alo)).foldl (flmRow a b2jf blo bhi) ((alo, blo, 0), fun _ => 0)).1

/-- The backward extension loops of find_longest_match: phase false is the
loop guarded by not isbjunk, phase true the one guarded by isbjunk.
Structural recursion on besti, which each iteration decrements. -/
def extendBack (a b : PyStr) (alo blo : Nat) (bjunk : Nat → Bool) (phase : Bool) :
    Nat → Nat → Nat → Nat × Nat × Nat
  | 0, j, s => (0, j, s)
  | i+1, j, s =>
    if alo < i + 1 ∧ blo < j ∧ bjunk (b.getD (j - 1) 0) = phase ∧ a.getD i 0 = b.getD (j - 1) 0 then
      extendBack a b alo blo bjunk phase i (j - 1) (s + 1)
    else (i + 1, j, s)

/-- The forward extension loops of find_longest_match.  Fuel bounds the
iteration count; every step raises besti + bestsize and the loop stops
once it reaches ahi, so any fuel at least ahi is enough. -/
def extendFwd (a b : PyStr) (ahi bhi : Nat) (bjunk : Nat → Bool) (phase : Bool) :
    Nat → Nat → Nat → Nat → Nat × Nat × Nat
  | 0, i, j, s => (i, j, s)
  | f+1, i, j, s =>
    if i + s < ahi ∧ j + s < bhi ∧ bjunk (b.getD (j + s) 0) = phase ∧ a.getD (i + s) 0 = b.getD (j + s) 0 then
      extendFwd a b ahi bhi bjunk phase f i j (s + 1)
    else (i, j, s)

/-- find_longest_match on a[alo:ahi] x b[blo:bhi] with isjunk None:
the dynamic program followed by the four extension loops (isbjunk is
constantly false, since bjunk is empty). -/
def find_longest_match (a b : PyStr) (alo ahi blo bhi : Nat) : Nat × Nat × Nat :=
  let bjunk : Nat → Bool := fun _ => false
  let st := flmBest a (pyB2j b) alo ahi blo bhi
  let e1 := extendBack a b alo blo bjunk false st.1 st.2.1 st.2.2
  let e2 := extendFwd a b ahi bhi bjunk false ahi e1.1 e1.2.1 e1.2.2
  let e3 := extendBack a b alo blo bjunk true e2.1 e2.2.1 e2.2.2
  let e4 := extendFwd a b ahi bhi bjunk true ahi e3.1 e3.2.1 e3.2.2
  e4

/-- Total size of the blocks produced by get_matching_blocks on the given
ranges.  The Python queue traversal walks the same recursion tree; the
final sort and the merging of adjacent blocks preserve the total size,
which is all that ratio consumes.  Fuel bounds the recursion depth:
(ahi - alo) + (bhi - blo) shrinks at every recursive call, so any larger
fuel is enough. -/
def matchSumF (a b : PyStr) : Nat → Nat → Nat → Nat → Nat → Nat
  | 0, _, _, _, _ => 0
  | fuel+1, alo, ahi, blo, bhi =>
    let m := find_longest_match a b alo ahi blo bhi
    let i := m.1
    let j := m.2.1
    let k := m.2.2
    if k = 0 then 0
    else (if alo < i ∧ blo < j then matchSumF a b fuel alo i blo j else 0) + k +
         (if i + k < ahi ∧ j + k < bhi then matchSumF a b fuel (i + k) ahi (j + k) bhi else 0)

/-- M, the total number of matched elements over get_matching_blocks. -/
def sm_matches (a b : PyStr) : Nat :=
  matchSumF a b (a.length + b.length + 1) 0 a.length 0 b.length

/-- SequenceMatcher(None, a, b).ratio() = 2 M / (len a + len b), modelled
exactly over the rationals; the zero-length case returns 1.0. -/
def ratioQ (a b : PyStr) : ℚ :=
  if a.length + b.length = 0 then 1
  else mkRat (2 * sm_matches a b) (a.length + b.length)

/-- The mkRat form of ratioQ agrees with the literal 2 M / T formula. -/
theorem ratioQ_eq_div (a b : PyStr) (h : a.length + b.length ≠ 0) :
    ratioQ a b = 2 * (sm_matches a b : ℚ) / ((a.length : ℚ) + (b.length : ℚ)) := by
  simp only [ratioQ, if_neg h, Rat.mkRat_eq_div]
  push_cast
  ring

/-- scripts/deduplicate_papers.py, title_similarity (lines 38-44). -/
def title_similarity (t1 t2 : PyStr) : ℚ :=
  let a := normalize_string t1
  let b := normalize_string t2
  if a = [] ∨ b = [] then 0 else ratioQ a b

/-! ### Records and the duplicate classifier -/

/-- An author entry of a record: either a structured entry exposing an
optional name field, or a plain value whose string form is the name. -/
inductive Author where
  | structured (name : Option PyStr)
  | plain (s : PyStr)
deriving DecidableEq

/-- A bibliographic record as consumed by are_duplicates: a dict with
optional doi and title (none covers both an absent key and a stored
None) and an author list. -/
structure Paper where
  doi : Option PyStr
  title : Option PyStr
  authors : List Author
deriving DecidableEq

/-- author.get('name', '') when the entry is a dict, str(author)
otherwise. -/
def authorName : Author → PyStr
  | .structured n => n.getD []
  | .plain s => s

/-- Python string comparison: lexicographic on code points. -/
def pyStrLe : PyStr → PyStr → Bool
  | [], _ => true
  | _ :: _, [] => false
  | c :: cs, d :: ds => if c < d then true else if d < c then false else pyStrLe cs ds

/-- Python str.join with the pipe separator. -/
def joinPipe : List PyStr → PyStr
  | [] => []
  | [s] => s
  | s :: rest => s ++ 124 :: joinPipe rest

/-- str.split('|'). -/
def splitPipe : PyStr → List PyStr
  | [] => [[]]
  | c :: rest =>
    if c = 124 then [] :: splitPipe rest
    else
      match splitPipe rest with
      | [] => [[c]]
      | t :: ts => (c :: t) :: ts

/-- scripts/deduplicate_papers.py, normalize_authors (lines 23-36):
normalize the non-empty author names, sort them, join with a pipe. -/
def normalize_authors (authors : List Author) : PyStr :=
  if authors = [] then []
  else
    let author_names := authors.filterMap
      (fun author =>
        let name := authorName author
        if name = [] then none else some (normalize_string name))
    joinPipe (author_names.mergeSort pyStrLe)

/-- paper.get('doi', '').strip().lower() if paper.get('doi') else ''. -/
def effDoi (p : Paper) : PyStr :=
  match p.doi with
  | none => []
  | some s => if s = [] then [] else lowerStr (stripWs s)

/-- paper.get('title', ''): the stored title, '' when absent or None. -/
def effTitle (p : Paper) : PyStr := p.title.getD []

/-- scripts/deduplicate_papers.py, are_duplicates (lines 46-91). -/
def are_duplicates (paper1 paper2 : Paper) (similarity_threshold : ℚ) : Bool :=
  let doi1 := effDoi paper1
  let doi2 := effDoi paper2
  if doi1 ≠ [] ∧ doi2 ≠ [] ∧ doi1 = doi2 then true
  else
    let title1 := effTitle paper1
    let title2 := effTitle paper2
    if title1 = [] ∨ title2 = [] then false
    else
      let sim := title_similarity title1 title2
      if similarity_threshold ≤ sim then
        let authors1 := normalize_authors paper1.authors
        let authors2 := normalize_authors paper2.authors
        if authors1 ≠ [] ∧ authors2 ≠ [] then
          let auth1_set := (splitPipe authors1).dedup
          let auth2_set := (splitPipe authors2).dedup
          if auth1_set ≠ [] ∧ auth2_set ≠ [] then
            let overlap := (auth1_set.filter (fun x => decide (x ∈ auth2_set))).length
            let min_authors := min auth1_set.length auth2_set.length
            if mkRat 1 2 ≤ mkRat overlap min_authors then true else false
          else false
        else
          if mkRat 19 20 ≤ sim then true else false
      else false

/-- The default similarity threshold 0.85. -/
def defaultThreshold : ℚ := mkRat 17 20

/-- scripts/deduplicate_papers.py, deduplicate_papers (lines 161-188):
fold each record against the accepted unique records (first match wins),
counting discarded duplicates. -/
def deduplicate_papers (all_papers : List Paper) : List Paper × Nat :=
  all_papers.foldl
    (fun acc paper =>
      if acc.1.any (fun unique_paper => are_duplicates paper unique_paper defaultThreshold) then
        (acc.1, acc.2 + 1)
      else (acc.1 ++ [paper], acc.2))
    ([], 0)

/-! ### Pointwise facts about the normalizer -/

/-- Replacing after lowercasing agrees with lowercasing after replacing:
the kept character class is closed under ASCII lowercasing. -/
theorem replChar_lowerChar (c : Nat) :
    (if isWordChar (lowerChar c) || isSpaceChar (lowerChar c) then lowerChar c else 32)
      = lowerChar (if isWordChar c || isSpaceChar c then c else 32) := by
  by_cases h : 65 ≤ c ∧ c ≤ 90
  · have hl : lowerChar c = c + 32 := by simp [lowerChar, h]
    have hw : (isWordChar (c + 32) || isSpaceChar (c + 32)) = true := by
      simp only [isWordChar, isSpaceChar, Bool.or_eq_true, Bool.and_eq_true,
        decide_eq_true_eq, beq_iff_eq]
      omega
    have hw' : (isWordChar c || isSpaceChar c) = true := by
      simp only [isWordChar, isSpaceChar, Bool.or_eq_true, Bool.and_eq_true,
        decide_eq_true_eq, beq_iff_eq]
      omega
    rw [hl, if_pos hw, if_pos hw', hl]
  · have hl : lowerChar c = c := by simp [lowerChar, h]
    rw [hl]
    by_cases hf : (isWordChar c || isSpaceChar c) = true
    · rw [if_pos hf]
      exact hl.symm
    · rw [if_neg hf]
      simp [lowerChar]

/-- C4, counterexample: on the input a_b the code keeps the underscore
(regex \w) while the algorithm stated by the spec sentence replaces it
with a space, so the two results differ. -/
theorem normalize_string_spec_counterexample :
    normalize_string (strCodes "a_b") ≠ normalizeSpecClaim (strCodes "a_b") := by decide

/-- C4, amended: normalize_string is total, returns the empty string on
empty input, and equals the spec algorithm once the kept character class
also includes the underscore (replace each character that is not a
letter, digit, underscore, or whitespace with a space, lowercase,
collapse whitespace runs, trim). -/
theorem normalize_string_spec_amended :
    normalize_string [] = [] ∧ ∀ s : PyStr, normalize_string s = normalizeSpecAmended s := by
  refine ⟨rfl, fun s => ?_⟩
  unfold normalize_string normalizeSpecAmended lowerStr
  rw [List.map_map, List.map_map]
  have : ∀ c : Nat,
      ((fun c => if isWordChar c || isSpaceChar c then c else 32) ∘ lowerChar) c
        = (lowerChar ∘ fun c => if isWordChar c || isSpaceChar c then c else 32) c := by
    intro c
    exact replChar_lowerChar c
  rw [List.map_congr_left (fun c _ => this c)]

/-! ### C1, C2: the identifier short-circuit and missing-title rule -/

/-- C1, counterexample: two records with no title at all but the same
non-empty identifier are classified as duplicates, because the DOI check
precedes the title check. -/
theorem missing_title_counterexample :
    effTitle (Paper.mk (some (strCodes "10.1/x")) none []) = [] ∧
      are_duplicates (Paper.mk (some (strCodes "10.1/x")) none [])
        (Paper.mk (some (strCodes "10.1/x")) none []) defaultThreshold = true := by decide

/-- C1, amended: if either record lacks a title (absent or empty) and the
identifier short-circuit does not fire, are_duplicates returns false for
every threshold and any authors. -/
theorem missing_title_safe (p1 p2 : Paper) (th : ℚ)
    (hdoi : ¬(effDoi p1 ≠ [] ∧ effDoi p2 ≠ [] ∧ effDoi p1 = effDoi p2))
    (ht : effTitle p1 = [] ∨ effTitle p2 = []) :
    are_duplicates p1 p2 th = false := by
  simp only [are_duplicates]
  rw [if_neg hdoi, if_pos ht]

theorem missing_title_safe_witness :
    are_duplicates (Paper.mk none none [])
      (Paper.mk (some (strCodes "10.1/x")) (some (strCodes "some title")) [])
      defaultThreshold = false :=
  missing_title_safe _ _ _ (by decide) (by decide)

/-- C2, counterexample: two records whose identifiers are non-empty but
consist of whitespace only satisfy the claim premise (non-empty
identifiers with equal trimmed lowercased forms), yet are_duplicates
returns false: the code requires the trimmed form itself to be
non-empty. -/
theorem doi_match_counterexample :
    strCodes "   " ≠ [] ∧ strCodes " " ≠ [] ∧
      lowerStr (stripWs (strCodes "   ")) = lowerStr (stripWs (strCodes " ")) ∧
      are_duplicates (Paper.mk (some (strCodes "   ")) none [])
        (Paper.mk (some (strCodes " ")) none []) defaultThreshold = false := by decide

/-- C2, amended: if both records carry an identifier that is non-empty
after whitespace-trimming and the trimmed lowercased forms are equal,
are_duplicates returns true for every threshold, titles and authors. -/
theorem doi_match_short_circuit (p1 p2 : Paper) (d1 d2 : PyStr) (th : ℚ)
    (h1 : p1.doi = some d1) (h2 : p2.doi = some d2)
    (hne : lowerStr (stripWs d1) ≠ [])
    (heq : lowerStr (stripWs d1) = lowerStr (stripWs d2)) :
    are_duplicates p1 p2 th = true := by
  have hd1 : d1 ≠ [] := by
    intro h
    subst h
    exact hne rfl
  have hd2 : d2 ≠ [] := by
    intro h
    rw [h] at heq
    exact hne heq
  have e1 : effDoi p1 = lowerStr (stripWs d1) := by
    simp [effDoi, h1, hd1]
  have e2 : effDoi p2 = lowerStr (stripWs d2) := by
    simp [effDoi, h2, hd2]
  simp only [are_duplicates]
  rw [if_pos]
  constructor
  · rw [e1]; exact hne
  constructor
  · rw [e2, ← heq]; exact hne
  · rw [e1, e2]; exact heq

theorem doi_match_short_circuit_witness :
    are_duplicates
      (Paper.mk (some (strCodes " 10.1/X ")) (some (strCodes "drift detection in clouds")) [])
      (Paper.mk (some (strCodes "10.1/x")) (some (strCodes "completely unrelated topic")) [])
      defaultThreshold = true :=
  doi_match_short_circuit _ _ _ _ defaultThreshold rfl rfl (by decide) (by decide)

/-! ### C3: the deduplication count invariant -/

/-- The fold of deduplicate_papers either appends the record or counts it,
so discarded plus kept always accounts for every processed record. -/
theorem dedupFoldInvariant (l : List Paper) (acc : List Paper × Nat) :
    (l.foldl
        (fun acc paper =>
          if acc.1.any (fun unique_paper => are_duplicates paper unique_paper defaultThreshold) then
            (acc.1, acc.2 + 1)
          else (acc.1 ++ [paper], acc.2)) acc).2
      + (l.foldl
        (fun acc paper =>
          if acc.1.any (fun unique_paper => are_duplicates paper unique_paper defaultThreshold) then
            (acc.1, acc.2 + 1)
          else (acc.1 ++ [paper], acc.2)) acc).1.length
      = acc.2 + acc.1.length + l.length := by
  induction l generalizing acc with
  | nil => simp
  | cons p t ih =>
    rw [List.foldl_cons, ih]
    by_cases h : acc.1.any (fun unique_paper => are_duplicates p unique_paper defaultThreshold)
    · simp only [if_pos h, List.length_cons]
      omega
    · simp only [if_neg h, List.length_append, List.length_cons, List.length_nil]
      omega

/-- C3: for every input sequence, the duplicate count plus the number of
unique records returned by deduplicate_papers equals the input length. -/
theorem deduplicate_papers_count_invariant (all_papers : List Paper) :
    (deduplicate_papers all_papers).2 + (deduplicate_papers all_papers).1.length
      = all_papers.length := by
  unfold deduplicate_papers
  rw [dedupFoldInvariant]
  simp

/-! ### C5, C6: identity score and commutativity -/

/-- C5, counterexample: a non-empty string whose normalized form is empty
scores 0, not 1, against itself after normalization. -/
theorem identity_score_counterexample :
    strCodes "!" ≠ [] ∧
      title_similarity (normalize_string (strCodes "!")) (normalize_string (strCodes "!")) ≠ 1 := by
  decide

/-- C6, counterexample: the SequenceMatcher ratio depends on the argument
order, so title_similarity is not commutative. -/
theorem title_similarity_not_commutative :
    title_similarity (strCodes "xbbb") (strCodes "bbxb")
      ≠ title_similarity (strCodes "bbxb") (strCodes "xbbb") := by decide

/-- C6, amended: the similarity score is symmetric whenever the two
normalized strings coincide, and also whenever either normalizes to the
empty string (both orders then score 0); in general the underlying
sequence-alignment ratio is not commutative. -/
theorem title_similarity_comm_of_normalized (a b : PyStr)
    (h : normalize_string a = normalize_string b ∨
      normalize_string a = [] ∨ normalize_string b = []) :
    title_similarity a b = title_similarity b a := by
  rcases h with h | h | h
  · simp [title_similarity, h, or_comm]
  · simp [title_similarity, h]
  · simp [title_similarity, h]

theorem title_similarity_comm_of_normalized_witness :
    title_similarity (strCodes "x") (strCodes " x ")
      = title_similarity (strCodes " x ") (strCodes "x") :=
  title_similarity_comm_of_normalized _ _ (Or.inl (by decide))

/-! ### C7: the 0.95 fallback bar when author data is missing -/

/-- C7: when the identifier match does not fire, both titles are present,
the title similarity reaches the (default) threshold, and at least one
record carries no author information, are_duplicates returns true exactly
when the similarity reaches 0.95. -/
theorem no_author_fallback_bar (p1 p2 : Paper)
    (hdoi : ¬(effDoi p1 ≠ [] ∧ effDoi p2 ≠ [] ∧ effDoi p1 = effDoi p2))
    (ht1 : effTitle p1 ≠ []) (ht2 : effTitle p2 ≠ [])
    (hsim : defaultThreshold ≤ title_similarity (effTitle p1) (effTitle p2))
    (hauth : normalize_authors p1.authors = [] ∨ normalize_authors p2.authors = []) :
    are_duplicates p1 p2 defaultThreshold = true ↔
      mkRat 19 20 ≤ title_similarity (effTitle p1) (effTitle p2) := by
  have hne : ¬(effTitle p1 = [] ∨ effTitle p2 = []) := by
    rintro (h | h)
    · exact ht1 h
    · exact ht2 h
  have hauth' : ¬(normalize_authors p1.authors ≠ [] ∧ normalize_authors p2.authors ≠ []) := by
    rintro ⟨ha1, ha2⟩
    rcases hauth with h | h
    · exact ha1 h
    · exact ha2 h
  simp only [are_duplicates]
  rw [if_neg hdoi, if_neg hne, if_pos hsim, if_neg hauth']
  by_cases h : mkRat 19 20 ≤ title_similarity (effTitle p1) (effTitle p2)
  · simp [h]
  · simp [h]

theorem no_author_fallback_bar_witness :
    are_duplicates (Paper.mk none (some (strCodes "clouds")) [])
      (Paper.mk none (some (strCodes "clouds")) []) defaultThreshold = true :=
  (no_author_fallback_bar _ _ (by decide) (by decide) (by decide) (by decide)
    (Or.inl (by decide))).mpr (by decide)

/-! ### The citation resolver of build_website.py (load_reference_map)

The per-citation core: given the quoted title extracted from the
reference text (if any), the 44-papers pool (higher priority), the
156-papers pool (secondary), and the PDF map, produce the linked PDF or
none.  Dict iteration order is modelled by the list order of the pools
and of the PDF map. -/

/-- A row of the higher-priority CSV pool: Title and Paper Number, each
possibly missing. -/
structure IncludedRow where
  title : Option PyStr
  paperNumber : Option PyStr
deriving DecidableEq

/-- A row of the secondary CSV pool: Paper Title, possibly missing. -/
structure ScreeningRow where
  paperTitle : Option PyStr
deriving DecidableEq

/-- row.get(field, ''): a missing CSV field reads as the empty string. -/
def effField (o : Option PyStr) : PyStr := o.getD []

/-- Does hay start with needle? -/
def startsWithStr : PyStr → PyStr → Bool
  | [], _ => true
  | _ :: _, [] => false
  | c :: cs, d :: ds => c == d && startsWithStr cs ds

/-- Python substring containment: needle occurs contiguously in hay. -/
def substrIn (n : PyStr) : PyStr → Bool
  | [] => n.isEmpty
  | c :: t => startsWithStr n (c :: t) || substrIn n t

/-- str.isdigit on ASCII: non-empty and all decimal digits. -/
def isDigitStr (s : PyStr) : Bool :=
  !s.isEmpty && s.all (fun c => 48 ≤ c && c ≤ 57)

/-- int() on a decimal digit string. -/
def strToNat (s : PyStr) : Nat := s.foldl (fun acc c => acc * 10 + (c - 48)) 0

/-- p_num in pdf_map / pdf_map[p_num]. -/
def lookupPdf (pdf_map : List (Nat × PyStr)) (k : Nat) : Option PyStr :=
  (pdf_map.find? (fun pr => pr.1 == k)).map (fun pr => pr.2)

/-- The containment test of the higher-priority pool (lines 116-117):
case-insensitive substring containment in either direction between the
extracted title and the row Title. -/
def containTest (search_title : PyStr) (row : IncludedRow) : Bool :=
  substrIn (lowerStr search_title) (lowerStr (effField row.title)) ||
    substrIn (lowerStr (effField row.title)) (lowerStr search_title)

/-- One iteration of the included-pool loop (lines 115-124): a structural
match requires the containment test and a digit paper number present in
the PDF map; none means the loop continues with the next row. -/
def passRow (search_title : PyStr) (pdf_map : List (Nat × PyStr)) (row : IncludedRow) :
    Option PyStr :=
  if containTest search_title row then
    let p_num_str := stripWs (effField row.paperNumber)
    if p_num_str ≠ [] ∧ isDigitStr p_num_str = true then
      lookupPdf pdf_map (strToNat p_num_str)
    else none
  else none

/-- The higher-priority pool scan: first row that yields a structural
match wins (the break at line 124). -/
def includedScan (search_title : PyStr) (rows : List IncludedRow)
    (pdf_map : List (Nat × PyStr)) : Option PyStr :=
  match rows with
  | [] => none
  | row :: rest =>
    match passRow search_title pdf_map row with
    | some f => some f
    | none => includedScan search_title rest pdf_map

/-- The secondary-pool loop (lines 127-135): the body under the
containment test is a bare pass statement, so the loop inspects the rows
without ever assigning a target. -/
def csvScan (search_title : PyStr) (rows : List ScreeningRow) : Option PyStr :=
  rows.foldl
    (fun acc row =>
      if substrIn (lowerStr search_title) (lowerStr (effField row.paperTitle)) then acc else acc)
    none

/-- Maximal word-character runs of the extracted title: the non-empty
pieces of re.split on non-word runs (line 141). -/
def wordTokens : PyStr → List PyStr
  | [] => []
  | c :: rest =>
    let ts := wordTokens rest
    if isWordChar c then
      match rest with
      | [] => [[c]]
      | d :: _ =>
        if isWordChar d then
          match ts with
          | t :: ts' => (c :: t) :: ts'
          | [] => [[c]]
        else [c] :: ts
    else ts

/-- Tokens longer than 4 characters (line 141). -/
def longTokens (s : PyStr) : List PyStr :=
  (wordTokens s).filter (fun t => 4 < t.length)

/-- Line 144: how many long tokens occur case-insensitively in the
candidate file name. -/
def tokenScore (title_tokens : List PyStr) (p_file : PyStr) : Nat :=
  (title_tokens.filter (fun t => substrIn (lowerStr t) (lowerStr p_file))).length

/-- Lines 142-147: fold over the PDF map, keeping the first candidate
that strictly improves the best score, provided the score reaches 2. -/
def fallbackScan (title_tokens : List PyStr) (pdf_map : List (Nat × PyStr)) : Option PyStr :=
  (pdf_map.foldl
    (fun (acc : Nat × Option PyStr) pr =>
      let score := tokenScore title_tokens pr.2
      if acc.1 < score ∧ 2 ≤ score then (score, some pr.2) else acc)
    (0, none)).2

/-- The per-citation core of load_reference_map (lines 109-154). -/
def resolveReference (title_match : Option PyStr) (included_papers : List IncludedRow)
    (csv_papers : List ScreeningRow) (pdf_map : List (Nat × PyStr)) : Option PyStr :=
  let target1 : Option PyStr :=
    match title_match with
    | none => none
    | some search_title =>
      match includedScan search_title included_papers pdf_map with
      | some f => some f
      | none => csvScan search_title csv_papers
  match target1 with
  | some f => some f
  | none =>
    match title_match with
    | some search_title => fallbackScan (longTokens search_title) pdf_map
    | none => none

/-- The highest token score over the candidate pool. -/
def maxTokenScore (title_tokens : List PyStr) (pdf_map : List (Nat × PyStr)) : Nat :=
  (pdf_map.map (fun pr => tokenScore title_tokens pr.2)).foldr max 0

/-- The fallback selection rule as the spec states it: the first
candidate in pool order whose score equals the strictly highest one,
accepted only when that score is at least 2; otherwise unresolved. -/
def bestCandidateSpec (title_tokens : List PyStr) (pdf_map : List (Nat × PyStr)) : Option PyStr :=
  if 2 ≤ maxTokenScore title_tokens pdf_map then
    (pdf_map.find?
        (fun pr => tokenScore title_tokens pr.2 == maxTokenScore title_tokens pdf_map)).map
      (fun pr => pr.2)
  else none

/-! ### Resolver lemmas -/

/-- The empty string is a substring of every string. -/
theorem substrIn_nil (h : PyStr) : substrIn [] h = true := by
  induction h with
  | nil => rfl
  | cons c t ih => simp [substrIn, startsWithStr]

/-- The secondary-pool loop never produces a target: both branches of
its conditional leave the accumulator unchanged. -/
theorem csvScan_eq_none (search_title : PyStr) (rows : List ScreeningRow) :
    csvScan search_title rows = none := by
  suffices h : ∀ (l : List ScreeningRow) (acc : Option PyStr),
      l.foldl
        (fun acc row =>
          if substrIn (lowerStr search_title) (lowerStr (effField row.paperTitle)) then acc
          else acc) acc = acc by
    exact h rows none
  intro l
  induction l with
  | nil => intro acc; rfl
  | cons r t ih =>
    intro acc
    rw [List.foldl_cons, ite_self]
    exact ih acc

/-- Rows that yield no structural match are skipped by the pool scan. -/
theorem includedScan_append_none (st : PyStr) (pre l : List IncludedRow)
    (pdf : List (Nat × PyStr)) (h : ∀ r ∈ pre, passRow st pdf r = none) :
    includedScan st (pre ++ l) pdf = includedScan st l pdf := by
  induction pre with
  | nil => rfl
  | cons r t ih =>
    rw [List.cons_append]
    have hr : passRow st pdf r = none := h r (by simp)
    simp only [includedScan, hr]
    exact ih (fun r' hr' => h r' (by simp [hr']))

/-- Closed form of the fallback fold: starting from best score b and
target t, the fold returns the strictly highest score and the first
candidate attaining it when that beats b and reaches 2, and is otherwise
the unchanged accumulator. -/
theorem fallbackFoldEq (toks : List PyStr) (l : List (Nat × PyStr)) (b : Nat) (t : Option PyStr) :
    (l.foldl
        (fun (acc : Nat × Option PyStr) pr =>
          let score := tokenScore toks pr.2
          if acc.1 < score ∧ 2 ≤ score then (score, some pr.2) else acc) (b, t))
      = if b < maxTokenScore toks l ∧ 2 ≤ maxTokenScore toks l then
          (maxTokenScore toks l,
            (l.find? (fun pr => tokenScore toks pr.2 == maxTokenScore toks l)).map
              (fun pr => pr.2))
        else (b, t) := by
  induction l generalizing b t with
  | nil => simp [maxTokenScore]
  | cons pr rest ih =>
    have hM : maxTokenScore toks (pr :: rest)
        = max (tokenScore toks pr.2) (maxTokenScore toks rest) := by
      simp [maxTokenScore]
    rw [List.foldl_cons, hM]
    by_cases hstep : b < tokenScore toks pr.2 ∧ 2 ≤ tokenScore toks pr.2
    · simp only [if_pos hstep]
      rw [ih]
      by_cases h2 : tokenScore toks pr.2 < maxTokenScore toks rest
               ∧ 2 ≤ maxTokenScore toks rest
      · rw [if_pos h2, if_pos ⟨by omega, by omega⟩]
        have hmax : max (tokenScore toks pr.2) (maxTokenScore toks rest)
            = maxTokenScore toks rest := Nat.max_eq_right h2.1.le
        rw [hmax, List.find?_cons_of_neg]
        simp only [beq_iff_eq]
        omega
      · rw [if_neg h2]
        have hle : maxTokenScore toks rest ≤ tokenScore toks pr.2 := by
          rcases Nat.lt_or_ge (tokenScore toks pr.2) (maxTokenScore toks rest) with hx | hx
          · exact absurd ⟨hx, by omega⟩ h2
          · exact hx
        have hmax : max (tokenScore toks pr.2) (maxTokenScore toks rest)
            = tokenScore toks pr.2 := Nat.max_eq_left hle
        rw [hmax, if_pos ⟨hstep.1, hstep.2⟩, List.find?_cons_of_pos]
        · rfl
        · simp
    · simp only [if_neg hstep]
      rw [ih]
      by_cases h2 : b < maxTokenScore toks rest ∧ 2 ≤ maxTokenScore toks rest
      · rw [if_pos h2]
        have hlt : tokenScore toks pr.2 < maxTokenScore toks rest := by
          rcases Nat.lt_or_ge b (tokenScore toks pr.2) with hx | hx
          · have : ¬ 2 ≤ tokenScore toks pr.2 := fun hy => hstep ⟨hx, hy⟩
            omega
          · omega
        have hmax : max (tokenScore toks pr.2) (maxTokenScore toks rest)
            = maxTokenScore toks rest := Nat.max_eq_right hlt.le
        rw [hmax, if_pos ⟨h2.1, h2.2⟩, List.find?_cons_of_neg]
        simp only [beq_iff_eq]
        omega
      · rw [if_neg h2, if_neg]
        intro hc
        rcases max_choice (tokenScore toks pr.2) (maxTokenScore toks rest) with hx | hx
        · rw [hx] at hc
          exact hstep hc
        · rw [hx] at hc
          exact h2 hc

/-- The fallback fold implements exactly the spec selection rule. -/
theorem fallbackScan_eq_spec (toks : List PyStr) (pdf : List (Nat × PyStr)) :
    fallbackScan toks pdf = bestCandidateSpec toks pdf := by
  unfold fallbackScan bestCandidateSpec
  rw [fallbackFoldEq]
  by_cases h : 2 ≤ maxTokenScore toks pdf
  · rw [if_pos ⟨by omega, h⟩, if_pos h]
  · rw [if_neg (fun hc => h hc.2), if_neg h]

/-- Every per-candidate score below c bounds the highest score below c. -/
theorem maxTokenScore_lt (toks : List PyStr) (pdf : List (Nat × PyStr)) (c : Nat)
    (hc : 0 < c) (h : ∀ pr ∈ pdf, tokenScore toks pr.2 < c) :
    maxTokenScore toks pdf < c := by
  induction pdf with
  | nil => simpa [maxTokenScore] using hc
  | cons pr rest ih =>
    have : maxTokenScore toks (pr :: rest)
        = max (tokenScore toks pr.2) (maxTokenScore toks rest) := by
      simp [maxTokenScore]
    rw [this]
    exact Nat.max_lt.mpr ⟨h pr (by simp), ih (fun r hr => h r (by simp [hr]))⟩

/-! ### C8, C9, C10: the resolver claims -/

/-- C8, counterexample: the extracted title and a secondary-pool row
title contain each other case-insensitively, no higher-priority row
matches, yet the citation does not resolve to that candidate: the
secondary-pool loop body is dead code (its body is a bare pass), and the
token fallback finds no score of 2, so the outcome is unresolved. -/
theorem secondary_pool_counterexample :
    substrIn (lowerStr (strCodes "alpha"))
        (lowerStr (effField (ScreeningRow.mk (some (strCodes "alpha"))).paperTitle)) = true ∧
      substrIn (lowerStr (effField (ScreeningRow.mk (some (strCodes "alpha"))).paperTitle))
        (lowerStr (strCodes "alpha")) = true ∧
      resolveReference (some (strCodes "alpha")) []
        [ScreeningRow.mk (some (strCodes "alpha"))] [(1, strCodes "1-zzz.pdf")] = none := by
  decide

/-- C8, amended: structural matches come only from the higher-priority
pool.  The resolution outcome never depends on the secondary pool's
contents, and whenever the higher-priority scan finds a structural match
the citation resolves to it. -/
theorem structural_match_included_pool_only :
    (∀ (st : PyStr) (inc : List IncludedRow) (csvA csvB : List ScreeningRow)
        (pdf : List (Nat × PyStr)),
        resolveReference (some st) inc csvA pdf = resolveReference (some st) inc csvB pdf)
    ∧ (∀ (st : PyStr) (inc : List IncludedRow) (csv : List ScreeningRow)
        (pdf : List (Nat × PyStr)) (f : PyStr),
        includedScan st inc pdf = some f →
        resolveReference (some st) inc csv pdf = some f) := by
  constructor
  · intro st inc csvA csvB pdf
    cases hscan : includedScan st inc pdf with
    | some f => simp [resolveReference, hscan]
    | none => simp [resolveReference, hscan, csvScan_eq_none]
  · intro st inc csv pdf f h
    simp [resolveReference, h]

theorem structural_match_included_pool_only_witness :
    resolveReference (some (strCodes "cloud drift survey"))
      [IncludedRow.mk (some (strCodes "cloud drift survey")) (some (strCodes "1"))]
      [ScreeningRow.mk (some (strCodes "ignored"))]
      [(1, strCodes "1-doc.pdf")] = some (strCodes "1-doc.pdf") :=
  structural_match_included_pool_only.2 _ _ _ _ _ (by decide)

/-- C9: when the structural scan fails, the resolver returns exactly the
spec selection: the first candidate in pool order attaining the strictly
highest token score, accepted only when that score is at least 2; in
particular when every candidate scores below 2 the outcome is the
unresolved value none (no exception is possible: the resolver is a total
function into Option). -/
theorem token_fallback_selection (st : PyStr) (inc : List IncludedRow)
    (csv : List ScreeningRow) (pdf : List (Nat × PyStr))
    (hstruct : includedScan st inc pdf = none) :
    resolveReference (some st) inc csv pdf = bestCandidateSpec (longTokens st) pdf
    ∧ ((∀ pr ∈ pdf, tokenScore (longTokens st) pr.2 < 2) →
        resolveReference (some st) inc csv pdf = none) := by
  have hmain : resolveReference (some st) inc csv pdf
      = bestCandidateSpec (longTokens st) pdf := by
    simp [resolveReference, hstruct, csvScan_eq_none, fallbackScan_eq_spec]
  refine ⟨hmain, fun hall => ?_⟩
  rw [hmain]
  unfold bestCandidateSpec
  rw [if_neg]
  intro h2
  exact absurd (maxTokenScore_lt (longTokens st) pdf 2 (by omega) hall) (by omega)

theorem token_fallback_selection_witness :
    resolveReference (some (strCodes "cloud computing")) [] []
      [(1, strCodes "1-cloud.pdf")] = none :=
  (token_fallback_selection (strCodes "cloud computing") [] []
    [(1, strCodes "1-cloud.pdf")] rfl).2 (by decide)

/-- C10: a higher-priority row whose Title is missing or empty passes the
containment test for every extracted title (the empty string is a
substring of anything), and when the first structurally matching row of
the pool is such a row (all earlier rows failing the containment or
paper-number tests), the citation resolves to its document, reaching
neither the secondary pool nor the token fallback. -/
theorem empty_title_row_matches :
    (∀ (st : PyStr) (row : IncludedRow), effField row.title = [] → containTest st row = true)
    ∧ (∀ (st : PyStr) (pre : List IncludedRow) (row : IncludedRow) (rest : List IncludedRow)
        (csv : List ScreeningRow) (pdf : List (Nat × PyStr)) (f : PyStr),
        (∀ r ∈ pre, passRow st pdf r = none) →
        effField row.title = [] →
        stripWs (effField row.paperNumber) ≠ [] →
        isDigitStr (stripWs (effField row.paperNumber)) = true →
        lookupPdf pdf (strToNat (stripWs (effField row.paperNumber))) = some f →
        resolveReference (some st) (pre ++ row :: rest) csv pdf = some f) := by
  have part1 : ∀ (st : PyStr) (row : IncludedRow),
      effField row.title = [] → containTest st row = true := by
    intro st row h
    unfold containTest
    rw [h]
    have : substrIn (lowerStr []) (lowerStr st) = true := substrIn_nil _
    rw [this, Bool.or_true]
  refine ⟨part1, ?_⟩
  intro st pre row rest csv pdf f hpre htitle hnum hdig hlook
  have hpass : passRow st pdf row = some f := by
    simp only [passRow]
    rw [if_pos (part1 st row htitle), if_pos ⟨hnum, hdig⟩]
    exact hlook
  have hscan : includedScan st (pre ++ row :: rest) pdf = some f := by
    rw [includedScan_append_none st pre _ pdf hpre]
    simp [includedScan, hpass]
  simp [resolveReference, hscan]

theorem empty_title_row_matches_witness :
    containTest (strCodes "anything") (IncludedRow.mk none (some (strCodes "1"))) = true ∧
      resolveReference (some (strCodes "anything"))
        [IncludedRow.mk none (some (strCodes "1"))] [] [(1, strCodes "1-doc.pdf")]
        = some (strCodes "1-doc.pdf") := by
  constructor
  · exact empty_title_row_matches.1 _ _ rfl
  · exact empty_title_row_matches.2 _ [] _ [] _ _ _ (by simp) rfl (by decide) (by decide)
      (by decide)

/-! ### Character and normalizer lemmas towards the identity-score claim -/

/-- Word characters are not whitespace. -/
theorem word_not_space (c : Nat) (h : isWordChar c = true) : isSpaceChar c = false := by
  simp only [isWordChar, Bool.or_eq_true, Bool.and_eq_true, decide_eq_true_eq,
    beq_iff_eq] at h
  simp only [isSpaceChar, Bool.or_eq_false_iff, beq_eq_false_iff_ne]
  omega

/-- ASCII lowercasing preserves word characters. -/
theorem word_lowerChar (c : Nat) (h : isWordChar c = true) : isWordChar (lowerChar c) = true := by
  simp only [isWordChar, Bool.or_eq_true, Bool.and_eq_true, decide_eq_true_eq,
    beq_iff_eq] at h ⊢
  unfold lowerChar
  by_cases hc : 65 ≤ c ∧ c ≤ 90
  · rw [if_pos hc]; omega
  · rw [if_neg hc]; omega

/-- Every character of the collapsed string is a space or came from the
input. -/
theorem mem_collapseWs (c : Nat) (l : PyStr) (h : c ∈ collapseWs l) : c = 32 ∨ c ∈ l := by
  induction l with
  | nil => simp [collapseWs] at h
  | cons d t ih =>
    simp only [collapseWs] at h
    by_cases hd : isSpaceChar d = true
    · rw [if_pos hd] at h
      by_cases hh : (collapseWs t).head? = some 32
      · rw [if_pos hh] at h
        rcases ih h with h32 | hmem
        · exact Or.inl h32
        · exact Or.inr (List.mem_cons_of_mem d hmem)
      · rw [if_neg hh] at h
        rcases List.mem_cons.mp h with rfl | hmem
        · exact Or.inl rfl
        · rcases ih hmem with h32 | hmem'
          · exact Or.inl h32
          · exact Or.inr (List.mem_cons_of_mem d hmem')
    · rw [if_neg hd] at h
      rcases List.mem_cons.mp h with rfl | hmem
      · exact Or.inr (List.mem_cons_self c t)
      · rcases ih hmem with h32 | hmem'
        · exact Or.inl h32
        · exact Or.inr (List.mem_cons_of_mem d hmem')

/-- Non-whitespace characters of the input survive collapsing. -/
theorem mem_collapseWs_of_not_space (c : Nat) (l : PyStr) (hmem : c ∈ l)
    (hns : isSpaceChar c = false) : c ∈ collapseWs l := by
  induction l with
  | nil => simp at hmem
  | cons d t ih =>
    simp only [collapseWs]
    rcases List.mem_cons.mp hmem with rfl | hmem'
    · rw [if_neg (by simp [hns])]
      exact List.mem_cons_self c (collapseWs t)
    · by_cases hd : isSpaceChar d = true
      · rw [if_pos hd]
        have hc := ih hmem'
        by_cases hh : (collapseWs t).head? = some 32
        · rw [if_pos hh]
          exact hc
        · rw [if_neg hh]
          exact List.mem_cons_of_mem 32 hc
      · rw [if_neg hd]
        exact List.mem_cons_of_mem d (ih hmem')

/-- Non-matching elements survive dropWhile. -/
theorem mem_dropWhile_of_not (p : Nat → Bool) (c : Nat) (l : PyStr) (hmem : c ∈ l)
    (hc : p c = false) : c ∈ l.dropWhile p := by
  induction l with
  | nil => simp at hmem
  | cons d t ih =>
    rcases List.mem_cons.mp hmem with rfl | hmem'
    · rw [List.dropWhile_cons, if_neg (by simp [hc])]
      exact List.mem_cons_self c t
    · by_cases hd : p d = true
      · rw [List.dropWhile_cons, if_pos (by simp [hd])]
        exact ih hmem'
      · rw [List.dropWhile_cons, if_neg (by simp_all)]
        exact List.mem_cons_of_mem d hmem'

/-- Non-whitespace characters survive stripping. -/
theorem mem_stripWs_of_not_space (c : Nat) (l : PyStr) (hmem : c ∈ l)
    (hns : isSpaceChar c = false) : c ∈ stripWs l := by
  unfold stripWs
  have h1 : c ∈ l.dropWhile (fun c => isSpaceChar c) :=
    mem_dropWhile_of_not _ c l hmem hns
  have h2 : c ∈ (l.dropWhile (fun c => isSpaceChar c)).reverse := by
    simpa using h1
  have h3 := mem_dropWhile_of_not _ c _ h2 hns
  simpa using h3

theorem stripWs_ne_nil (c : Nat) (l : PyStr) (hmem : c ∈ l)
    (hns : isSpaceChar c = false) : stripWs l ≠ [] :=
  List.ne_nil_of_mem (mem_stripWs_of_not_space c l hmem hns)

/-- Stripping only removes characters. -/
theorem mem_stripWs (c : Nat) (l : PyStr) (h : c ∈ stripWs l) : c ∈ l := by
  unfold stripWs at h
  have h1 := List.mem_reverse.mp h
  have h2 := (List.dropWhile_sublist _).mem h1
  have h3 := List.mem_reverse.mp h2
  exact (List.dropWhile_sublist _).mem h3

/-- Every character of a normalized string is a word character or
whitespace. -/
theorem normalize_chars (s : PyStr) (c : Nat) (h : c ∈ normalize_string s) :
    (isWordChar c || isSpaceChar c) = true := by
  unfold normalize_string at h
  have h1 := mem_stripWs c _ h
  rcases mem_collapseWs c _ h1 with rfl | h2
  · simp [isSpaceChar]
  · rcases List.mem_map.mp h2 with ⟨d, _, hd⟩
    by_cases hw : (isWordChar d || isSpaceChar d) = true
    · rw [if_pos hw] at hd
      subst hd
      exact hw
    · rw [if_neg hw] at hd
      subst hd
      simp [isSpaceChar]

/-- The first remaining element after dropWhile fails the predicate. -/
theorem dropWhile_head?_false (p : Nat → Bool) (l : PyStr) (c : Nat)
    (h : (l.dropWhile p).head? = some c) : p c = false := by
  induction l with
  | nil => simp at h
  | cons d t ih =>
    by_cases hd : p d = true
    · rw [List.dropWhile_cons, if_pos (by simp [hd])] at h
      exact ih h
    · rw [List.dropWhile_cons, if_neg (by simp_all)] at h
      simp only [List.head?_cons, Option.some_inj] at h
      subst h
      simp_all

/-- A non-empty normalized string contains a word character. -/
theorem normalize_has_word (s : PyStr) (h : normalize_string s ≠ []) :
    ∃ c ∈ normalize_string s, isWordChar c = true := by
  unfold normalize_string at h ⊢
  set u0 := collapseWs ((lowerStr s).map
    (fun c => if isWordChar c || isSpaceChar c then c else 32)) with hu0
  rcases hY : u0.dropWhile (fun c => isSpaceChar c) with _ | ⟨c, Y'⟩
  · exfalso
    apply h
    unfold stripWs
    rw [hY]
    rfl
  · have hhead : isSpaceChar c = false := by
      apply dropWhile_head?_false (fun c => isSpaceChar c) u0 c
      rw [hY]
      rfl
    have hcY : c ∈ u0.dropWhile (fun c => isSpaceChar c) := by
      rw [hY]
      exact List.mem_cons_self c Y'
    have hcmem : c ∈ stripWs u0 := by
      unfold stripWs
      have h2 : c ∈ (u0.dropWhile (fun c => isSpaceChar c)).reverse := by simpa using hcY
      have h3 := mem_dropWhile_of_not _ c _ h2 hhead
      simpa using h3
    refine ⟨c, hcmem, ?_⟩
    have hcls := normalize_chars s c (by unfold normalize_string; rw [← hu0]; exact hcmem)
    rcases Bool.or_eq_true_iff.mp hcls with hw | hsp
    · exact hw
    · rw [hsp] at hhead
      cases hhead

/-- Normalizing a non-empty normalized string again yields a non-empty
string: its word characters survive each stage. -/
theorem normalize_normalize_ne (s : PyStr) (h : normalize_string s ≠ []) :
    normalize_string (normalize_string s) ≠ [] := by
  rcases normalize_has_word s h with ⟨c, hmem, hword⟩
  set u := normalize_string s with hu
  unfold normalize_string
  have h1 : lowerChar c ∈ lowerStr u := List.mem_map.mpr ⟨c, hmem, rfl⟩
  have hword' : isWordChar (lowerChar c) = true := word_lowerChar c hword
  have h2 : lowerChar c ∈
      (lowerStr u).map (fun c => if isWordChar c || isSpaceChar c then c else 32) := by
    refine List.mem_map.mpr ⟨lowerChar c, h1, ?_⟩
    rw [if_pos (by simp [hword'])]
  have hns : isSpaceChar (lowerChar c) = false := word_not_space _ hword'
  have h3 := mem_collapseWs_of_not_space _ _ h2 hns
  exact stripWs_ne_nil _ _ h3 hns

/-! ### The find_longest_match dynamic program on equal strings

For the identity-score claim, the block found by find_longest_match on
the pair (t, t) over the ranges [0, hi) x [0, hi) must be the full
diagonal.  flmL is the mathematical value of the j2len entries of the
dynamic program: the length of the longest chain of b2j-listed matches
ending at row i, column j. -/

/-- Membership in the purged position table. -/
theorem mem_pyB2j (b : PyStr) (c j : Nat) :
    j ∈ pyB2j b c ↔ j < b.length ∧ b.getD j 0 = c ∧ pyPopular b c = false := by
  unfold pyB2j pyPositions
  by_cases hp : pyPopular b c = true
  · simp [hp]
  · have hp' : pyPopular b c = false := by simp_all
    simp [hp', List.mem_filter, List.mem_range]

/-- The position lists of b2j are strictly increasing. -/
theorem pyB2j_sorted (b : PyStr) (c : Nat) : (pyB2j b c).Pairwise (· < ·) := by
  unfold pyB2j pyPositions
  by_cases hp : pyPopular b c = true
  · simp [hp]
  · have hp' : pyPopular b c = false := by simp_all
    rw [if_neg (by simp [hp'])]
    exact (List.pairwise_lt_range _).filter _

/-- Validity of a cell of the dynamic program run on (t, t) over
[0, hi) x [0, hi): the row is in range and the column appears in the
b2j list of the row element. -/
def flmValid (t : PyStr) (hi i j : Nat) : Prop :=
  i < hi ∧ j < hi ∧ j ∈ pyB2j t (t.getD i 0)

instance (t : PyStr) (hi i j : Nat) : Decidable (flmValid t hi i j) := by
  unfold flmValid
  infer_instance

/-- j2len value of the dynamic program on (t, t): longest chain of
b2j-listed matches ending at cell (i, j). -/
def flmL (t : PyStr) (hi : Nat) : Nat → Nat → Nat
  | 0, j => if flmValid t hi 0 j then 1 else 0
  | i+1, j =>
    if flmValid t hi (i+1) j then
      (if 0 < j then flmL t hi i (j - 1) else 0) + 1
    else 0

theorem flmL_invalid (t : PyStr) (hi i j : Nat) (h : ¬ flmValid t hi i j) :
    flmL t hi i j = 0 := by
  cases i with
  | zero => simp [flmL, h]
  | succ i' => simp [flmL, h]

/-- Chains cannot be longer than the number of rows below them. -/
theorem flmL_le_row (t : PyStr) (hi : Nat) : ∀ i j, flmL t hi i j ≤ i + 1 := by
  intro i
  induction i with
  | zero =>
    intro j
    by_cases h : flmValid t hi 0 j
    · simp [flmL, h]
    · simp [flmL, h]
  | succ i' ih =>
    intro j
    by_cases h : flmValid t hi (i'+1) j
    · simp only [flmL, if_pos h]
      by_cases hj : 0 < j
      · rw [if_pos hj]
        have := ih (j - 1)
        omega
      · rw [if_neg hj]
        omega
    · simp [flmL, h]

/-- Chains cannot be longer than the number of columns below them. -/
theorem flmL_le_col (t : PyStr) (hi : Nat) : ∀ i j, flmL t hi i j ≤ j + 1 := by
  intro i
  induction i with
  | zero =>
    intro j
    by_cases h : flmValid t hi 0 j
    · simp [flmL, h]
    · simp [flmL, h]
  | succ i' ih =>
    intro j
    by_cases h : flmValid t hi (i'+1) j
    · simp only [flmL, if_pos h]
      by_cases hj : 0 < j
      · rw [if_pos hj]
        have := ih (j - 1)
        omega
      · rw [if_neg hj]
        omega
    · simp [flmL, h]

/-- On equal strings a valid cell makes its column diagonal cell valid. -/
theorem flmValid_diag_col (t : PyStr) (hi : Nat) (hhi : hi ≤ t.length) (i j : Nat)
    (h : flmValid t hi i j) : flmValid t hi j j := by
  obtain ⟨hi1, hj1, hmem⟩ := h
  obtain ⟨hjlen, hchar, hpop⟩ := (mem_pyB2j t (t.getD i 0) j).mp hmem
  refine ⟨hj1, hj1, (mem_pyB2j t (t.getD j 0) j).mpr ⟨hjlen, rfl, ?_⟩⟩
  rw [hchar]
  exact hpop

/-- On equal strings a valid cell makes its row diagonal cell valid. -/
theorem flmValid_diag_row (t : PyStr) (hi : Nat) (hhi : hi ≤ t.length) (i j : Nat)
    (h : flmValid t hi i j) : flmValid t hi i i := by
  obtain ⟨hi1, hj1, hmem⟩ := h
  obtain ⟨hjlen, hchar, hpop⟩ := (mem_pyB2j t (t.getD i 0) j).mp hmem
  exact ⟨hi1, hi1, (mem_pyB2j t (t.getD i 0) i).mpr ⟨by omega, rfl, hpop⟩⟩

/-- Below the diagonal, every chain is dominated by the diagonal chain
of its column. -/
theorem flmL_le_diag_col (t : PyStr) (hi : Nat) (hhi : hi ≤ t.length) :
    ∀ i j, j < i → flmL t hi i j ≤ flmL t hi j j := by
  intro i
  induction i with
  | zero => intro j hj; omega
  | succ i' ih =>
    intro j hj
    by_cases hV : flmValid t hi (i'+1) j
    · have hVd := flmValid_diag_col t hi hhi _ _ hV
      cases j with
      | zero =>
        simp only [flmL, if_pos hV, if_pos hVd]
        simp
      | succ j' =>
        simp only [flmL, if_pos hV, if_pos hVd, Nat.succ_sub_one]
        rw [if_pos (Nat.succ_pos j'), if_pos (Nat.succ_pos j')]
        have hlt : j' < i' := by omega
        have := ih j' hlt
        omega
    · rw [flmL_invalid t hi _ _ hV]
      omega

/-- Above the diagonal, every chain is dominated by the diagonal chain
of its row. -/
theorem flmL_le_diag_row (t : PyStr) (hi : Nat) (hhi : hi ≤ t.length) :
    ∀ i j, i < j → flmL t hi i j ≤ flmL t hi i i := by
  intro i
  induction i with
  | zero =>
    intro j hj
    by_cases hV : flmValid t hi 0 j
    · have hVd := flmValid_diag_row t hi hhi _ _ hV
      simp [flmL, hV, hVd]
    · rw [flmL_invalid t hi _ _ hV]
      omega
  | succ i' ih =>
    intro j hj
    by_cases hV : flmValid t hi (i'+1) j
    · have hVd := flmValid_diag_row t hi hhi _ _ hV
      simp only [flmL, if_pos hV, if_pos hVd]
      have h0j : 0 < j := by omega
      rw [if_pos h0j, if_pos (by omega : 0 < i' + 1)]
      have := ih (j - 1) (by omega)
      simp only [Nat.succ_sub_one]
      omega
    · rw [flmL_invalid t hi _ _ hV]
      omega

/-- The j2len row that the dynamic program carries into row i: empty for
the first row, otherwise the previous row of flmL. -/
def prevRowL (t : PyStr) (hi i : Nat) : Nat → Nat :=
  fun j => if i = 0 then 0 else flmL t hi (i - 1) j

/-- The k computed by flmStep at a valid cell is exactly flmL. -/
theorem kval_eq_flmL (t : PyStr) (hi i j : Nat) (hV : flmValid t hi i j)
    (prev : Nat → Nat) (hprev : ∀ j', prev j' = prevRowL t hi i j') :
    (if j = 0 then 0 else prev (j - 1)) + 1 = flmL t hi i j := by
  cases i with
  | zero =>
    simp only [flmL, if_pos hV]
    by_cases hj : j = 0
    · rw [if_pos hj]
    · rw [if_neg hj, hprev]
      simp [prevRowL]
  | succ i' =>
    simp only [flmL, if_pos hV]
    by_cases hj : j = 0
    · rw [if_pos hj, if_neg (by omega)]
    · rw [if_neg hj, if_pos (by omega), hprev]
      simp [prevRowL]

/-- The row function built by the inner fold: the fold updates the new
j2len only at the iterated columns and never reads it. -/
theorem flmInnerSnd (prev : Nat → Nat) (i : Nat) :
    ∀ (js : List Nat) (g : Nat → Nat) (best : Nat × Nat × Nat) (j' : Nat),
      (js.foldl (flmStep prev i) (best, g)).2 j'
        = if j' ∈ js then (if j' = 0 then 0 else prev (j' - 1)) + 1 else g j' := by
  intro js
  induction js with
  | nil => intro g best j'; simp
  | cons j rest ih =>
    intro g best j'
    rw [List.foldl_cons]
    have hstep : flmStep prev i (best, g) j
        = (if best.2.2 < (if j = 0 then 0 else prev (j - 1)) + 1 then
            (i + 1 - ((if j = 0 then 0 else prev (j - 1)) + 1),
              j + 1 - ((if j = 0 then 0 else prev (j - 1)) + 1),
              (if j = 0 then 0 else prev (j - 1)) + 1)
          else best,
          fun x => if x = j then (if j = 0 then 0 else prev (j - 1)) + 1 else g x) := rfl
    rw [hstep, ih]
    by_cases hmem : j' ∈ rest
    · rw [if_pos hmem, if_pos (List.mem_cons_of_mem j hmem)]
    · rw [if_neg hmem]
      by_cases hj : j' = j
      · subst hj
        rw [if_pos rfl, if_pos (List.mem_cons_self j' rest)]
      · rw [if_neg hj, if_neg (by
          intro hx
          rcases List.mem_cons.mp hx with h | h
          · exact hj h
          · exact hmem h)]

/-- The running best of the inner fold stays on the diagonal, keeps
besti + bestsize within the row bound, and ends up dominating every
diagonal value up to the current row. -/
theorem flmInnerBest (t : PyStr) (hi : Nat) (hhi : hi ≤ t.length) (i : Nat)
    (prev : Nat → Nat) (hprev : ∀ j', prev j' = prevRowL t hi i j') :
    ∀ (js : List Nat) (g : Nat → Nat) (best : Nat × Nat × Nat),
      (∀ j ∈ js, flmValid t hi i j) →
      js.Pairwise (· < ·) →
      best.1 = best.2.1 →
      best.1 + best.2.2 ≤ i + 1 →
      (∀ m, m < i → flmL t hi m m ≤ best.2.2) →
      (i ∉ js → flmL t hi i i ≤ best.2.2) →
      ((js.foldl (flmStep prev i) (best, g)).1.1
          = (js.foldl (flmStep prev i) (best, g)).1.2.1
        ∧ (js.foldl (flmStep prev i) (best, g)).1.1
            + (js.foldl (flmStep prev i) (best, g)).1.2.2 ≤ i + 1
        ∧ (∀ m, m ≤ i → flmL t hi m m ≤ (js.foldl (flmStep prev i) (best, g)).1.2.2)) := by
  intro js
  induction js with
  | nil =>
    intro g best _ _ hdiag hsum hmax hcur
    refine ⟨hdiag, hsum, fun m hm => ?_⟩
    rcases Nat.lt_or_ge m i with h | h
    · exact hmax m h
    · have : m = i := by omega
      subst this
      exact hcur (by simp)
  | cons j rest ih =>
    intro g best hjs hsorted hdiag hsum hmax hcur
    rw [List.foldl_cons]
    obtain ⟨hlt, hsorted'⟩ := List.pairwise_cons.mp hsorted
    have hVj : flmValid t hi i j := hjs j (by simp)
    have hk : (if j = 0 then 0 else prev (j - 1)) + 1 = flmL t hi i j :=
      kval_eq_flmL t hi i j hVj prev hprev
    have hstep : flmStep prev i (best, g) j
        = (if best.2.2 < (if j = 0 then 0 else prev (j - 1)) + 1 then
            (i + 1 - ((if j = 0 then 0 else prev (j - 1)) + 1),
              j + 1 - ((if j = 0 then 0 else prev (j - 1)) + 1),
              (if j = 0 then 0 else prev (j - 1)) + 1)
          else best,
          fun x => if x = j then (if j = 0 then 0 else prev (j - 1)) + 1 else g x) := rfl
    rw [hstep, hk]
    by_cases hji : j = i
    · subst hji
      by_cases hup : best.2.2 < flmL t hi j j
      · rw [if_pos hup]
        refine ih _ _ (fun x hx => hjs x (by simp [hx])) hsorted' rfl ?_ ?_ ?_
        · have := flmL_le_row t hi j j
          simp only []
          omega
        · intro m hm
          simp only []
          have := hmax m hm
          omega
        · intro _
          simp only []
          omega
      · rw [if_neg hup]
        refine ih _ _ (fun x hx => hjs x (by simp [hx])) hsorted' hdiag hsum hmax ?_
        intro _
        omega
    · have hnoup : ¬ best.2.2 < flmL t hi i j := by
        rcases Nat.lt_or_ge j i with hj | hj
        · have h1 := flmL_le_diag_col t hi hhi i j hj
          have h2 := hmax j hj
          omega
        · have hj' : i < j := by omega
          have h1 := flmL_le_diag_row t hi hhi i j hj'
          have hnotin : i ∉ j :: rest := by
            intro hmem
            rcases List.mem_cons.mp hmem with h | h
            · exact hji h.symm
            · exact absurd (hlt i h) (by omega)
          have h2 := hcur hnotin
          omega
      rw [if_neg hnoup]
      refine ih _ _ (fun x hx => hjs x (by simp [hx])) hsorted' hdiag hsum hmax ?_
      intro hnotin
      apply hcur
      intro hmem
      rcases List.mem_cons.mp hmem with h | h
      · exact hji h.symm
      · exact hnotin h

/-- The invariant carried between rows of the dynamic program run on
(t, t): the best block is diagonal, fits under the processed rows, and
dominates every processed diagonal value; the j2len function is the
previous flmL row. -/
def FlmInvar (t : PyStr) (hi i : Nat) (st : (Nat × Nat × Nat) × (Nat → Nat)) : Prop :=
  st.1.1 = st.1.2.1 ∧ st.1.1 + st.1.2.2 ≤ i ∧
    (∀ m, m < i → flmL t hi m m ≤ st.1.2.2) ∧
    (∀ j, st.2 j = prevRowL t hi i j)

/-- Columns iterated at row i are exactly the valid cells of the row. -/
theorem flmRow_js_mem (t : PyStr) (hi i : Nat) (hrow : i < hi) (j : Nat) :
    (j ∈ (pyB2j t (t.getD i 0)).filter (fun j => decide (0 ≤ j) && decide (j < hi)))
      ↔ flmValid t hi i j := by
  rw [List.mem_filter]
  unfold flmValid
  simp only [Bool.and_eq_true, decide_eq_true_eq]
  constructor
  · rintro ⟨hmem, _, hlt⟩
    exact ⟨hrow, hlt, hmem⟩
  · rintro ⟨_, hlt, hmem⟩
    exact ⟨hmem, by omega, hlt⟩

/-- Processing one row preserves the invariant. -/
theorem flmRowStep (t : PyStr) (hi : Nat) (hhi : hi ≤ t.length) (i : Nat) (hrow : i < hi)
    (st : (Nat × Nat × Nat) × (Nat → Nat)) (hinv : FlmInvar t hi i st) :
    FlmInvar t hi (i + 1) (flmRow t (pyB2j t) 0 hi st i) := by
  obtain ⟨hdiag, hsum, hmax, hprev⟩ := hinv
  have hjs : ∀ j ∈ (pyB2j t (t.getD i 0)).filter
      (fun j => decide (0 ≤ j) && decide (j < hi)), flmValid t hi i j :=
    fun j hj => (flmRow_js_mem t hi i hrow j).mp hj
  have hsorted : ((pyB2j t (t.getD i 0)).filter
      (fun j => decide (0 ≤ j) && decide (j < hi))).Pairwise (· < ·) :=
    (pyB2j_sorted t _).filter _
  have hcur : i ∉ (pyB2j t (t.getD i 0)).filter
      (fun j => decide (0 ≤ j) && decide (j < hi)) → flmL t hi i i ≤ st.1.2.2 := by
    intro hnot
    rw [flmL_invalid t hi i i (fun hV => hnot ((flmRow_js_mem t hi i hrow i).mpr hV))]
    omega
  have hbest := flmInnerBest t hi hhi i st.2 hprev _ (fun _ => 0) st.1 hjs hsorted hdiag
    (by omega) hmax hcur
  have hsnd := flmInnerSnd st.2 i ((pyB2j t (t.getD i 0)).filter
    (fun j => decide (0 ≤ j) && decide (j < hi))) (fun _ => 0) st.1
  refine ⟨hbest.1, hbest.2.1, fun m hm => hbest.2.2 m (by omega), fun j => ?_⟩
  rw [show (flmRow t (pyB2j t) 0 hi st i).2
      = ((((pyB2j t (t.getD i 0)).filter (fun j => decide (0 ≤ j) && decide (j < hi))).foldl
          (flmStep st.2 i) (st.1, fun _ => 0))).2 from rfl]
  rw [hsnd j]
  by_cases hmem : j ∈ (pyB2j t (t.getD i 0)).filter (fun j => decide (0 ≤ j) && decide (j < hi))
  · rw [if_pos hmem]
    have hV := (flmRow_js_mem t hi i hrow j).mp hmem
    rw [kval_eq_flmL t hi i j hV st.2 hprev]
    simp [prevRowL]
  · rw [if_neg hmem]
    have hV : ¬ flmValid t hi i j := fun hV => hmem ((flmRow_js_mem t hi i hrow j).mpr hV)
    simp [prevRowL, flmL_invalid t hi i j hV]

/-- The invariant holds after folding any block of consecutive rows. -/
theorem flmRowsInvar (t : PyStr) (hi : Nat) (hhi : hi ≤ t.length) :
    ∀ (cnt i : Nat) (st : (Nat × Nat × Nat) × (Nat → Nat)), i + cnt ≤ hi →
      FlmInvar t hi i st →
      FlmInvar t hi (i + cnt) ((List.range' i cnt).foldl (flmRow t (pyB2j t) 0 hi) st) := by
  intro cnt
  induction cnt with
  | zero =>
    intro i st _ h
    simpa using h
  | succ n ih =>
    intro i st hle hinv
    rw [List.range'_succ, List.foldl_cons]
    have h1 := flmRowStep t hi hhi i (by omega) st hinv
    have h2 := ih (i + 1) _ (by omega) h1
    have : i + (n + 1) = (i + 1) + n := by omega
    rw [this]
    exact h2

/-- On (t, t) with ranges [0, hi), the dynamic program returns a
diagonal best block fitting inside the range. -/
theorem flmBest_self (t : PyStr) (hi : Nat) (hhi : hi ≤ t.length) :
    (flmBest t (pyB2j t) 0 hi 0 hi).1 = (flmBest t (pyB2j t) 0 hi 0 hi).2.1
      ∧ (flmBest t (pyB2j t) 0 hi 0 hi).1 + (flmBest t (pyB2j t) 0 hi 0 hi).2.2 ≤ hi := by
  have h0 : FlmInvar t hi 0 ((0, 0, 0), fun _ => 0) := by
    refine ⟨rfl, by simp, fun m hm => by omega, fun j => by simp [prevRowL]⟩
  have h := flmRowsInvar t hi hhi hi 0 _ (by omega) h0
  unfold flmBest
  simp only [Nat.sub_zero]
  simp only [Nat.zero_add] at h
  exact ⟨h.1, h.2.1⟩

/-- The backward non-junk extension on (t, t) from a diagonal position
walks all the way down to 0. -/
theorem extendBack_self (t : PyStr) : ∀ (d s : Nat),
    extendBack t t 0 0 (fun _ => false) false d d s = (0, 0, s + d) := by
  intro d
  induction d with
  | zero => intro s; rfl
  | succ d' ih =>
    intro s
    simp only [extendBack]
    rw [show d' + 1 - 1 = d' from rfl, ih (s + 1),
      show s + 1 + d' = s + (d' + 1) from by omega]
    rw [if_pos (by refine ⟨by omega, by omega, ?_, rfl⟩; simp)]

/-- The forward non-junk extension on (t, t) from (0, 0) grows the block
to the whole range (any fuel covering the remaining distance). -/
theorem extendFwd_self (t : PyStr) (hi : Nat) : ∀ (f s : Nat), s ≤ hi → hi ≤ f + s →
    extendFwd t t hi hi (fun _ => false) false f 0 0 s = (0, 0, hi) := by
  intro f
  induction f with
  | zero =>
    intro s h1 h2
    have : s = hi := by omega
    subst this
    rfl
  | succ f' ih =>
    intro s h1 h2
    by_cases hs : s < hi
    · simp only [extendFwd]
      rw [if_pos (by refine ⟨by omega, by omega, ?_, ?_⟩ <;> trivial)]
      exact ih (s + 1) (by omega) (by omega)
    · have : s = hi := by omega
      subst this
      simp only [extendFwd]
      rw [if_neg (by intro hc; omega)]

/-- The junk extension loops never fire: the junk set is empty. -/
theorem extendBack_junk (a b : PyStr) (alo blo : Nat) : ∀ (i j s : Nat),
    extendBack a b alo blo (fun _ => false) true i j s = (i, j, s) := by
  intro i j s
  cases i with
  | zero => rfl
  | succ i' =>
    simp only [extendBack]
    rw [if_neg (by intro hc; exact absurd hc.2.2.1 (by simp))]

theorem extendFwd_junk (a b : PyStr) (ahi bhi : Nat) : ∀ (f i j s : Nat),
    extendFwd a b ahi bhi (fun _ => false) true f i j s = (i, j, s) := by
  intro f i j s
  cases f with
  | zero => rfl
  | succ f' =>
    simp only [extendFwd]
    rw [if_neg (by intro hc; exact absurd hc.2.2.1 (by simp))]

/-- find_longest_match on a string against itself returns the whole
range. -/
theorem find_longest_match_self (t : PyStr) (hi : Nat) (hhi : hi ≤ t.length) :
    find_longest_match t t 0 hi 0 hi = (0, 0, hi) := by
  obtain ⟨hdiag, hsum⟩ := flmBest_self t hi hhi
  have h1 : extendBack t t 0 0 (fun _ => false) false (flmBest t (pyB2j t) 0 hi 0 hi).1
      (flmBest t (pyB2j t) 0 hi 0 hi).2.1 (flmBest t (pyB2j t) 0 hi 0 hi).2.2
      = (0, 0, (flmBest t (pyB2j t) 0 hi 0 hi).2.2 + (flmBest t (pyB2j t) 0 hi 0 hi).1) := by
    rw [← hdiag]
    exact extendBack_self t _ _
  have h2 : extendFwd t t hi hi (fun _ => false) false hi 0 0
      ((flmBest t (pyB2j t) 0 hi 0 hi).2.2 + (flmBest t (pyB2j t) 0 hi 0 hi).1)
      = (0, 0, hi) :=
    extendFwd_self t hi hi _ (by omega) (by omega)
  simp only [find_longest_match]
  rw [h1]
  simp only []
  rw [h2]
  simp only []
  rw [extendBack_junk]
  simp only []
  rw [extendFwd_junk]

/-- The total match count of a string against itself is its length: the
first find_longest_match call already covers the whole range. -/
theorem sm_matches_self (t : PyStr) : sm_matches t t = t.length := by
  unfold sm_matches
  show matchSumF t t ((t.length + t.length) + 1) 0 t.length 0 t.length = t.length
  simp only [matchSumF]
  rw [find_longest_match_self t t.length (Nat.le_refl _)]
  by_cases h : t.length = 0
  · simp [h]
  · rw [if_neg h]
    simp

/-- ratio of a non-empty string with itself is exactly 1. -/
theorem ratioQ_self (t : PyStr) (h : t ≠ []) : ratioQ t t = 1 := by
  have hlen : t.length ≠ 0 := fun hl => h (List.length_eq_zero.mp hl)
  unfold ratioQ
  rw [if_neg (by omega), sm_matches_self, Rat.mkRat_eq_div]
  have hq : ((t.length : ℚ)) ≠ 0 := by
    exact_mod_cast hlen
  push_cast
  field_simp
  ring

/-- C5, counterexample support and amended statement: see
identity_score_counterexample for the failure of the claim on a
non-empty string normalizing to the empty string.  Amended: for every
string whose normalized form is non-empty, the similarity of the
normalized form with itself is exactly 1. -/
theorem identity_score (s : PyStr) (h : normalize_string s ≠ []) :
    title_similarity (normalize_string s) (normalize_string s) = 1 := by
  have h2 := normalize_normalize_ne s h
  unfold title_similarity
  rw [if_neg (by rintro (hx | hx) <;> exact h2 hx)]
  exact ratioQ_self _ h2

theorem identity_score_witness :
    normalize_string (strCodes "clouds") ≠ [] ∧
      title_similarity (normalize_string (strCodes "clouds"))
        (normalize_string (strCodes "clouds")) = 1 :=
  ⟨by decide, identity_score (strCodes "clouds") (by decide)⟩
